import Mathlib

/-!
# dailylog: the modal controller and the note store of `main.go`

A shallow embedding of `src/main.go` (package `main` of `seanblankenship/dailylog`).

* Go strings holding text are lists of Unicode code points (`GoString`); the
  builtin `len` of a string is its UTF-8 byte count (`len`).
* The file system is a tree of directories and regular files (`Node`) rooted
  at `/`, threaded through every operation inside a `World`, together with the
  wall clock, two device conditions (a failing `flock`, a failing `write`) and
  the trace of system calls issued so far.
* The bubbles widgets (`list`, `textinput`, `viewport`), the Unicode
  lower-casing table and the zip container encoding are external to the
  repository: their state is a small record, and what their code computes is a
  field of `Lib`.
-/

namespace DailyLog

/-! ## Strings -/

/-- Text held in a Go string: the sequence of its code points. -/
abbrev GoString := List Char

/-- Number of bytes of the UTF-8 encoding of one code point (`utf8.RuneLen`). -/
def runeLen (c : Char) : Nat :=
  if c.toNat < 0x80 then 1
  else if c.toNat < 0x800 then 2
  else if c.toNat < 0x10000 then 3
  else 4

/-- Go builtin `len` on a string: the number of bytes. -/
def len (s : GoString) : Nat := (s.map runeLen).sum

/-- Go `unicode.IsSpace`: the Latin-1 cases and the `White_Space` table. -/
def isSpace (c : Char) : Bool :=
  let r := c.toNat
  (0x09 ≤ r && r ≤ 0x0d) || r == 0x20 || r == 0x85 || r == 0xA0 || r == 0x1680 ||
  (0x2000 ≤ r && r ≤ 0x200a) || r == 0x2028 || r == 0x2029 || r == 0x202f ||
  r == 0x205f || r == 0x3000

/-- Go `strings.TrimSpace`: `TrimRightFunc (TrimLeftFunc s IsSpace) IsSpace`. -/
def TrimSpace (s : GoString) : GoString :=
  ((s.dropWhile isSpace).reverse.dropWhile isSpace).reverse

/-- Go `strconv`-style decimal of `x`, left-padded with zeros to `width`
(`time.appendInt`). -/
def appendInt (x width : Nat) : GoString :=
  let ds := Nat.toDigits 10 x
  List.replicate (width - ds.length) '0' ++ ds

/-! ## Time -/

/-- The fields of a `time.Time` that `Format` reads in this program. -/
structure Time where
  year : Nat
  month : Nat
  day : Nat
  hour : Nat
  minute : Nat
  second : Nat
  deriving DecidableEq, Repr

/-- Go `t.Format("01-02-2006")`. -/
def Time.formatDate (t : Time) : GoString :=
  appendInt t.month 2 ++ "-".toList ++ appendInt t.day 2 ++ "-".toList ++ appendInt t.year 4

/-- Go `t.Format("15:04")`. -/
def Time.formatClock (t : Time) : GoString :=
  appendInt t.hour 2 ++ ":".toList ++ appendInt t.minute 2

/-- Go `t.Format("2006-01-02-150405")`. -/
def Time.formatStamp (t : Time) : GoString :=
  appendInt t.year 4 ++ "-".toList ++ appendInt t.month 2 ++ "-".toList ++ appendInt t.day 2 ++
    "-".toList ++ appendInt t.hour 2 ++ appendInt t.minute 2 ++ appendInt t.second 2

/-! ## Paths -/

/-- A cleaned absolute path: its components from the root. -/
abbrev Path := List GoString

/-- Go `filepath.Join base elems...` on plain component names. -/
def Join (base : Path) (elems : List GoString) : Path := base ++ elems

/-- Go `filepath.Dir`. -/
def Dir (p : Path) : Path := p.dropLast

/-- Go `filepath.Rel base target` when `target` lies below `base`; `none` is its error. -/
def Rel : Path → Path → Option Path
  | [], t => some t
  | _ :: _, [] => none
  | b :: bs, t :: ts => if b = t then Rel bs ts else none

/-- A relative path printed with the separator `/`. -/
def pathString : Path → GoString
  | [] => ".".toList
  | [a] => a
  | a :: b :: rest => a ++ "/".toList ++ pathString (b :: rest)

/-- Scan of `filepath.Ext` over the reversed name: `acc` holds the characters
already passed, in order. -/
def extScan : List Char → List Char → GoString
  | [], _ => []
  | c :: rest, acc =>
    if c = '/' then []
    else if c = '.' then c :: acc
    else extScan rest (c :: acc)

/-- Go `filepath.Ext`: the suffix starting at the last dot of the last
element, empty when there is none. -/
def Ext (name : GoString) : GoString := extScan name.reverse []

/-! ## File system -/

/-- The causes the modelled library calls can report: `errno` values, and
the error of `filepath.Rel`. -/
inductive OsError where
  | relError
  | ENOENT
  | ENOTDIR
  | EISDIR
  | EACCES
  | ENOLCK
  | ENOSPC
  | EBADF
  deriving DecidableEq, Repr

/-- A file-system object: a regular file with the caller's read and write
permission and its content, or a directory with the caller's read (list) and
write (create) permission and its entries in the order a listing returns them. -/
inductive Node where
  | file (readable writable : Bool) (data : GoString)
  | dir (readable writable : Bool) (entries : List (GoString × Node))
  deriving Repr

/-- Entry of a directory by name. -/
def findEntry (name : GoString) : List (GoString × Node) → Option Node
  | [] => none
  | (k, v) :: rest => if k = name then some v else findEntry name rest

/-- Replace the entry called `name`. -/
def setEntry (name : GoString) (n : Node) : List (GoString × Node) → List (GoString × Node)
  | [] => []
  | (k, v) :: rest => if k = name then (k, n) :: rest else (k, v) :: setEntry name n rest

/-- Add a new entry at its place in the byte-wise name order of a listing. -/
def insertEntry (name : GoString) (n : Node) : List (GoString × Node) → List (GoString × Node)
  | [] => [(name, n)]
  | (k, v) :: rest =>
    if name < k then (name, n) :: (k, v) :: rest else (k, v) :: insertEntry name n rest

/-- Object at a path. -/
def Node.find : Node → Path → Option Node
  | n, [] => some n
  | .file _ _ _, _ :: _ => none
  | .dir _ _ es, name :: rest =>
    match findEntry name es with
    | some c => c.find rest
    | none => none

/-- Whole content of an object opened for reading. -/
def readNode : Node → Except OsError GoString
  | .dir _ _ _ => .error .EISDIR
  | .file r _ d => if r then .ok d else .error .EACCES

/-- Go `os.ReadFile`. -/
def ReadFile (fs : Node) (p : Path) : Except OsError GoString :=
  match fs.find p with
  | none => .error .ENOENT
  | some n => readNode n

/-- Go `os.ReadDir`: names and objects of a directory, in listing order. -/
def ReadDir (fs : Node) (p : Path) : Except OsError (List (GoString × Node)) :=
  match fs.find p with
  | none => .error .ENOENT
  | some (.file _ _ _) => .error .ENOTDIR
  | some (.dir r _ es) => if r then .ok es else .error .EACCES

/-- Go `os.MkdirAll p 0755`: every missing directory along `p` is created;
an existing directory is left as it is. -/
def MkdirAll : Node → Path → Except OsError Node
  | .file _ _ _, _ => .error .ENOTDIR
  | .dir r w es, [] => .ok (.dir r w es)
  | .dir r w es, name :: rest =>
    match findEntry name es with
    | some c =>
      match MkdirAll c rest with
      | .ok c1 => .ok (.dir r w (setEntry name c1 es))
      | .error e => .error e
    | none =>
      if w then
        match MkdirAll (.dir true true []) rest with
        | .ok c1 => .ok (.dir r w (insertEntry name c1 es))
        | .error e => .error e
      else .error .EACCES

/-- Go `os.OpenFile p (O_APPEND|O_CREATE|O_WRONLY) 0644`, and with `trunc`
`os.Create p` (`O_RDWR|O_CREATE|O_TRUNC`): the file system after the call, in
which the file exists. The descriptor is the path. -/
def OpenFile (trunc : Bool) : Node → Path → Except OsError Node
  | .file _ _ _, [] => .error .ENOTDIR
  | .dir _ _ _, [] => .error .EISDIR
  | .file _ _ _, _ :: _ => .error .ENOTDIR
  | .dir r w es, name :: rest =>
    match findEntry name es with
    | some c =>
      match rest with
      | [] =>
        match c with
        | .file fr fw d =>
          if fw then .ok (.dir r w (setEntry name (.file fr fw (if trunc then [] else d)) es))
          else .error .EACCES
        | .dir _ _ _ => .error .EISDIR
      | _ :: _ =>
        match OpenFile trunc c rest with
        | .ok c1 => .ok (.dir r w (setEntry name c1 es))
        | .error e => .error e
    | none =>
      match rest with
      | [] => if w then .ok (.dir r w (insertEntry name (.file true true []) es)) else .error .EACCES
      | _ :: _ => .error .ENOENT

/-- Data written through a descriptor opened with `O_APPEND` lands at the end
of the file. -/
def appendAt : Node → Path → GoString → Except OsError Node
  | .file r w d, [], s => .ok (.file r w (d ++ s))
  | .dir _ _ _, [], _ => .error .EBADF
  | .file _ _ _, _ :: _, _ => .error .EBADF
  | .dir r w es, name :: rest, s =>
    match findEntry name es with
    | some c =>
      match appendAt c rest s with
      | .ok c1 => .ok (.dir r w (setEntry name c1 es))
      | .error e => .error e
    | none => .error .EBADF

/-- System calls as they appear in the trace. -/
inductive Syscall where
  | mkdirAll (p : Path)
  | openFile (p : Path)
  | create (p : Path)
  | flock (p : Path)
  | funlock (p : Path)
  | write (p : Path) (s : GoString)
  | close (p : Path)
  | readFile (p : Path)
  | readDir (p : Path)
  | lstat (p : Path)
  deriving DecidableEq, Repr

/-- Everything outside the process: the file tree, the wall clock, whether
the kernel refuses the next `flock` or `write`, and the system calls made. -/
structure World where
  fs : Node
  now : Time
  flockFails : Bool
  writeFails : Bool
  trace : List Syscall

/-- Record a system call. -/
def World.log (w : World) (c : Syscall) : World := { w with trace := w.trace ++ [c] }

/-! ## Configuration and errors -/

/-- Go `Config`. `BaseDir` is a path, `MarkdownDir` one component of it. -/
structure Config where
  BaseDir : Path
  MarkdownDir : GoString
  MaxNoteLen : Int

/-- Go `defaultConfig`, with `BaseDir` as set by `loadConfig` for a home directory. -/
def defaultConfig (home : Path) : Config :=
  { BaseDir := Join home [".dailylog".toList], MarkdownDir := "logs".toList, MaxNoteLen := 1000 }

/-- The error values of the program. -/
inductive Error where
  /-- `fmt.Errorf("note too long: maximum length is %d characters", max)` -/
  | noteTooLong (max : Int)
  /-- `&ErrFileAccess{Op, Path, Err}` -/
  | fileAccess (op : String) (path : Path) (cause : OsError)
  /-- `fmt.Errorf("failed to lock file: %w", ...)`, wrapped once in `lockFile`
  and once in `saveNote` -/
  | lockFailed (cause : OsError)
  /-- `fmt.Errorf("failed to read directory %s: %w", dir, err)` -/
  | readDirFailed (path : Path) (cause : OsError)
  /-- `fmt.Errorf("failed to create backup: %w", err)` -/
  | backupFailed (cause : OsError)
  /-- an `os` error passed on as it is -/
  | os (cause : OsError)
  deriving DecidableEq, Repr

/-! ## `saveNote` -/

/-- Go `lockFile`: `syscall.Flock(fd, LOCK_EX)`. -/
def lockFile (w : World) (p : Path) : Option OsError × World :=
  if w.flockFails then (some .ENOLCK, w.log (.flock p)) else (none, w.log (.flock p))

/-- Go `unlockFile`: `syscall.Flock(fd, LOCK_UN)`. -/
def unlockFile (w : World) (p : Path) : World := w.log (.funlock p)

/-- Go `f.WriteString s` on the descriptor of `p`. -/
def WriteString (w : World) (p : Path) (s : GoString) : Option OsError × World :=
  if w.writeFails then (some .ENOSPC, w.log (.write p s))
  else
    match appendAt w.fs p s with
    | .ok fs1 => (none, { w.log (.write p s) with fs := fs1 })
    | .error e => (some e, w.log (.write p s))

/-- Go `model.saveNote`. The result is the returned error (`none` is `nil`)
and the world after the call. -/
def saveNote (config : Config) (w : World) (content : GoString) : Option Error × World :=
  let content := TrimSpace content
  if content = [] then (none, w)
  else if config.MaxNoteLen < (len content : Int) then
    (some (.noteTooLong config.MaxNoteLen), w)
  else
    let now := w.now
    let filename := now.formatDate ++ ".md".toList
    let filePath := Join config.BaseDir [config.MarkdownDir, filename]
    let w1 := w.log (.mkdirAll (Dir filePath))
    match MkdirAll w1.fs (Dir filePath) with
    | .error e => (some (.fileAccess "create directory" (Dir filePath) e), w1)
    | .ok fs1 =>
      let w2 := { w1 with fs := fs1 }.log (.openFile filePath)
      match OpenFile false w2.fs filePath with
      | .error e => (some (.fileAccess "open" filePath e), w2)
      | .ok fs2 =>
        let w3 := { w2 with fs := fs2 }
        match lockFile w3 filePath with
        | (some e, w4) => (some (.lockFailed e), w4.log (.close filePath))
        | (none, w4) =>
          let entry := "- [".toList ++ now.formatClock ++ "] ".toList ++ content ++ "\n".toList
          match WriteString w4 filePath entry with
          | (some e, w5) =>
            (some (.fileAccess "write" filePath e), (unlockFile w5 filePath).log (.close filePath))
          | (none, w5) => (none, (unlockFile w5 filePath).log (.close filePath))

/-! ## Widgets and the controller state -/

/-- Go `mode`. -/
inductive mode where
  | normalMode
  | addMode
  | viewMode
  | searchMode
  deriving DecidableEq, Repr

/-- Go `item`. -/
structure item where
  title : GoString
  filepath : Path
  deriving DecidableEq, Repr

/-- A value of the interface `list.Item`: an `item` of this program, or a
value of some other type. -/
inductive ListItem where
  | note (i : item)
  | foreign (tag : Nat)
  deriving DecidableEq, Repr

/-- Go `tea.Cmd` values, `none` being `nil`. `widget` stands for the
commands of the bubbles widgets that this program does not name. -/
inductive Cmd where
  | none
  | quit
  | blink
  | loadFiles (config : Config)
  | widget (tag : Nat)

/-- Go `tea.Msg` values by dynamic type: `tea.KeyMsg` with its `String()`,
`tea.WindowSizeMsg`, `[]list.Item`, `error`, and any other type. -/
inductive Msg where
  | key (s : String)
  | windowSize (Width Height : Int)
  | items (l : List ListItem)
  | error (e : Error)
  | other (tag : Nat)

/-- State of a bubbles `textinput.Model` that the program reads or sets. -/
structure TextInput where
  value : GoString
  focus : Bool
  Placeholder : String
  CharLimit : Nat
  Width : Int

/-- Go `textinput.New()`. -/
def TextInput.new : TextInput :=
  { value := [], focus := false, Placeholder := "", CharLimit := 0, Width := 0 }

/-- Go `(*textinput.Model).Reset`. -/
def TextInput.Reset (t : TextInput) : TextInput := { t with value := [] }

/-- Go `(*textinput.Model).Blur`. -/
def TextInput.Blur (t : TextInput) : TextInput := { t with focus := false }

/-- Go `(*textinput.Model).Focus`. -/
def TextInput.Focus (t : TextInput) : TextInput := { t with focus := true }

/-- State of a bubbles `list.Model` that the program reads or sets. -/
structure ListModel where
  items : List ListItem
  index : Nat
  width : Int
  height : Int
  Title : String
  showHelp : Bool

/-- Go `list.Model.SelectedItem`: `nil` when the cursor is outside the items. -/
def ListModel.SelectedItem (l : ListModel) : Option ListItem := l.items.get? l.index

/-- State of a bubbles `viewport.Model` that the program reads or sets. -/
structure Viewport where
  Width : Int
  Height : Int
  content : GoString
  YOffset : Nat

/-- Go `model`. -/
structure model where
  list : ListModel
  textInput : TextInput
  viewport : Viewport
  mode : mode
  err : Option Error
  width : Int
  height : Int
  currentFile : Path
  config : Config
  searchInput : TextInput
  searchResults : List ListItem

/-- Code outside the repository: the `Update` methods of the three bubbles
widgets, `unicode.ToLower`, and the bytes `archive/zip` writes for a sequence
of entries. -/
structure Lib where
  listUpdate : ListModel → Msg → ListModel × Cmd
  textInputUpdate : TextInput → Msg → TextInput × Cmd
  viewportUpdate : Viewport → Msg → Viewport × Cmd
  toLower : Char → Char
  zipBytes : List (GoString × GoString) → GoString

/-- Go `initialModel`, with the `config` field as `main` sets it right after. -/
def initialModel (config : Config) : model :=
  let ti := { TextInput.new with
    Placeholder := "Enter your daily note...", CharLimit := 156, Width := 50 }
  let l : ListModel :=
    { items := [], index := 0, width := 0, height := 0, Title := "Daily Notes", showHelp := false }
  let vp : Viewport := { Width := 0, Height := 0, content := [], YOffset := 0 }
  { list := l, textInput := ti, viewport := vp, mode := .normalMode, err := none,
    width := 0, height := 0, currentFile := [], config := config,
    searchInput := TextInput.new, searchResults := [] }

/-! ## `loadFiles` -/

/-- Go `items[i], items[j] = items[j], items[i]`. -/
def swap {α : Type} (items : List α) (i j : Nat) : List α :=
  match items.get? i, items.get? j with
  | some a, some b => (items.set i b).set j a
  | _, _ => items

/-- The loop `for i := 0; i < len(items)/2; i++ { j := len(items)-1-i; swap }`
from the counter value `i` on; `fuel` bounds the iterations. -/
def swapLoop {α : Type} : Nat → Nat → List α → List α
  | 0, _, items => items
  | fuel + 1, i, items =>
    if i < items.length / 2 then
      let j := items.length - 1 - i
      swapLoop fuel (i + 1) (swap items i j)
    else items

/-- The value `item{title: name, filepath: filepath.Join(BaseDir, MarkdownDir, name)}`
as a `list.Item`. -/
def logItem (config : Config) (name : GoString) : ListItem :=
  .note { title := name, filepath := Join config.BaseDir [config.MarkdownDir, name] }

/-- The first loop of `loadFiles`: one `item` per listed name with extension `.md`. -/
def collectItems (config : Config) : List (GoString × Node) → List ListItem → List ListItem
  | [], items => items
  | file :: rest, items =>
    if Ext file.1 = ".md".toList then
      collectItems config rest (items ++ [logItem config file.1])
    else collectItems config rest items

/-- Go `loadFiles`: the message it returns, and the world after the call. -/
def loadFiles (config : Config) (w : World) : Msg × World :=
  let dir := Join config.BaseDir [config.MarkdownDir]
  let w1 := w.log (.readDir dir)
  match ReadDir w1.fs dir with
  | .error e => (.error (.readDirFailed dir e), w1)
  | .ok files =>
    let items := collectItems config files []
    (.items (swapLoop items.length 0 items), w1)

/-! ## `search` -/

/-- Go `strings.HasPrefix s prefix`. -/
def HasPrefix : GoString → GoString → Bool
  | _, [] => true
  | [], _ :: _ => false
  | c :: s, p :: ps => c == p && HasPrefix s ps

/-- Go `strings.Contains s substr`: `substr` occurs at some offset of `s`. -/
def Contains : GoString → GoString → Bool
  | [], substr => HasPrefix [] substr
  | c :: s, substr => HasPrefix (c :: s) substr || Contains s substr

/-- Go `strings.ToLower`: `unicode.ToLower` on every code point. -/
def ToLower (x : Lib) (s : GoString) : GoString := s.map x.toLower

/-- The loop of `search` over the remaining items. -/
def searchLoop (x : Lib) (query : GoString) :
    List ListItem → World → List ListItem → List ListItem × World
  | [], w, results => (results, w)
  | listItem :: rest, w, results =>
    match listItem with
    | .note noteItem =>
      let w1 := w.log (.readFile noteItem.filepath)
      match ReadFile w1.fs noteItem.filepath with
      | .error _ => searchLoop x query rest w1 results
      | .ok content =>
        if Contains (ToLower x content) query then
          searchLoop x query rest w1 (results ++ [listItem])
        else searchLoop x query rest w1 results
    | .foreign _ => searchLoop x query rest w results

/-- Go `(*model).search`. -/
def search (x : Lib) (w : World) (m : model) (query : GoString) : List ListItem × World :=
  if query = [] then (m.list.items, w)
  else
    let query := ToLower x query
    searchLoop x query m.list.items w []

/-- The test the loop of `search` applies to one catalog entry, `query` being
the lower-cased query. -/
def searchTest (x : Lib) (fs : Node) (query : GoString) : ListItem → Bool
  | .note i =>
    match ReadFile fs i.filepath with
    | .ok content => Contains (ToLower x content) query
    | .error _ => false
  | .foreign _ => false

/-! ## `backup` -/

/-- What the walk of `backup` has produced so far: the entries written through
the `zip.Writer`, each a name and its data, and the system calls made. -/
structure WalkState where
  entries : List (GoString × GoString)
  trace : List Syscall

/-- Go `zw.Create name`: a new entry, empty so far, becomes the current one. -/
def zipCreate (entries : List (GoString × GoString)) (name : GoString) :
    List (GoString × GoString) :=
  entries ++ [(name, [])]

/-- Go `w.Write content` on the writer of the current entry. -/
def zipWrite : List (GoString × GoString) → GoString → List (GoString × GoString)
  | [], _ => []
  | [(name, data)], content => [(name, data ++ content)]
  | e :: f :: rest, content => e :: zipWrite (f :: rest) content

/-- The function literal `backup` passes to `filepath.Walk`; `info` is the
object at `path`, which `os.ReadFile path` reads. -/
def backupWalkFn (config : Config) (path : Path) (info : Node) (err : Option OsError)
    (st : WalkState) : Option OsError × WalkState :=
  match err with
  | some e => (some e, st)
  | none =>
    match info with
    | .dir _ _ _ => (none, st)
    | .file _ _ _ =>
      match Rel config.BaseDir path with
      | none => (some .relError, st)
      | some relPath =>
        let st1 := { st with entries := zipCreate st.entries (pathString relPath) }
        let st2 := { st1 with trace := st1.trace ++ [.readFile path] }
        match readNode info with
        | .error e => (some e, st2)
        | .ok content => (none, { st2 with entries := zipWrite st2.entries content })

/-- Go `filepath.walk` with the function of `backup`, which never returns
`SkipDir`: a file is handed to the function; a directory is listed, handed to
the function with the listing error, and then descended into entry by entry,
stopping at the first error. -/
def walk (config : Config) : Path → Node → WalkState → Option OsError × WalkState
  | path, .file r w d, st => backupWalkFn config path (.file r w d) none st
  | path, .dir r w es, st =>
    let err : Option OsError := if r then none else some .EACCES
    let st0 := { st with trace := st.trace ++ [.readDir path] }
    match backupWalkFn config path (.dir r w es) err st0 with
    | (some e1, st1) => (some e1, st1)
    | (none, st1) => if err.isSome then (none, st1) else entries path es st1
where
  /-- The loop over the names of a directory. -/
  entries (path : Path) : List (GoString × Node) → WalkState → Option OsError × WalkState
  | [], st => (none, st)
  | (name, n) :: rest, st =>
    let filename := Join path [name]
    let st0 := { st with trace := st.trace ++ [.lstat filename] }
    match walk config filename n st0 with
    | (some e, st1) => (some e, st1)
    | (none, st1) => entries path rest st1

/-- Go `filepath.Walk root fn` for the function of `backup`. When `Lstat root`
fails, the function gets the error and no file info; the object passed here in
that case is never inspected. -/
def Walk (config : Config) (fs : Node) (root : Path) (st : WalkState) :
    Option OsError × WalkState :=
  let st0 := { st with trace := st.trace ++ [.lstat root] }
  match fs.find root with
  | none => backupWalkFn config root (.dir false false []) (some .ENOENT) st0
  | some info => walk config root info st0

/-- Go `model.backup`, with the entries that went through the `zip.Writer`
made visible: the returned error, those entries, and the world after the
call, in which the deferred `zw.Close()` and `zipfile.Close()` have run. -/
def backupRun (x : Lib) (config : Config) (w : World) :
    Option Error × List (GoString × GoString) × World :=
  let backupDir := Join config.BaseDir ["backups".toList]
  let w1 := w.log (.mkdirAll backupDir)
  match MkdirAll w1.fs backupDir with
  | .error e => (some (.fileAccess "create backup directory" backupDir e), [], w1)
  | .ok fs1 =>
    let timestamp := w.now.formatStamp
    let backupFile := Join backupDir ["backup-".toList ++ timestamp ++ ".zip".toList]
    let w2 := { w1 with fs := fs1 }.log (.create backupFile)
    match OpenFile true w2.fs backupFile with
    | .error e => (some (.fileAccess "create backup file" backupFile e), [], w2)
    | .ok fs2 =>
      let markdownPath := Join config.BaseDir [config.MarkdownDir]
      let r := Walk config fs2 markdownPath { entries := [], trace := w2.trace }
      let bytes := x.zipBytes r.2.entries
      let fs3 := match appendAt fs2 backupFile bytes with
        | .ok f => f
        | .error _ => fs2
      let w3 := { w2 with
        fs := fs3, trace := r.2.trace ++ [.write backupFile bytes, .close backupFile] }
      match r.1 with
      | some e => (some (.backupFailed e), r.2.entries, w3)
      | none => (none, r.2.entries, w3)

/-- Go `model.backup`: the returned error and the world after the call. -/
def backup (x : Lib) (config : Config) (w : World) : Option Error × World :=
  ((backupRun x config w).1, (backupRun x config w).2.2)

/-! ## `Update` -/

/-- Go `setViewportContent`: `SetContent` then `GotoTop`. -/
def setViewportContent (m : model) (content : GoString) : model :=
  { m with viewport := { m.viewport with content := content, YOffset := 0 } }

/-- The lines `m.list, cmd = m.list.Update(msg); return m, cmd`. -/
def forwardToList (x : Lib) (w : World) (m : model) (msg : Msg) : model × Cmd × World :=
  ({ m with list := (x.listUpdate m.list msg).1 }, (x.listUpdate m.list msg).2, w)

/-- Go `model.Update`: the returned model and command, and the world after
the calls it made. -/
def Update (x : Lib) (w : World) (m : model) (msg : Msg) : model × Cmd × World :=
  if m.mode = .addMode then
    match msg with
    | .key s =>
      if s = "esc" then
        ({ m with mode := .normalMode, textInput := m.textInput.Reset.Blur }, .none, w)
      else if s = "enter" then
        match saveNote m.config w m.textInput.value with
        | (some err, w1) => ({ m with err := some err }, .none, w1)
        | (none, w1) =>
          ({ m with textInput := m.textInput.Reset, mode := .normalMode },
            .loadFiles m.config, w1)
      else
        ({ m with textInput := (x.textInputUpdate m.textInput msg).1 },
          (x.textInputUpdate m.textInput msg).2, w)
    | _ =>
      ({ m with textInput := (x.textInputUpdate m.textInput msg).1 },
        (x.textInputUpdate m.textInput msg).2, w)
  else
    match msg with
    | .windowSize Width Height =>
      if m.mode = .viewMode then
        ({ m with width := Width, height := Height,
                  viewport := { m.viewport with Width := Width, Height := Height - 4 } }, .none, w)
      else
        ({ m with width := Width, height := Height,
                  list := { m.list with width := Width, height := Height - 4 } }, .none, w)
    | .key s =>
      if m.mode = .normalMode then
        if s = "q" then (m, .quit, w)
        else if s = "a" then
          ({ m with mode := .addMode, textInput := m.textInput.Focus }, .blink, w)
        else if s = "B" then
          match backup x m.config w with
          | (some err, w1) => ({ m with err := some err }, .none, w1)
          | (none, w1) => (m, .none, w1)
        else if s = "enter" then
          match m.list.SelectedItem with
          | some (.note i) =>
            let w1 := w.log (.readFile i.filepath)
            match ReadFile w1.fs i.filepath with
            | .error err => ({ m with err := some (.os err) }, .none, w1)
            | .ok content =>
              let m1 := setViewportContent m content
              ({ m1 with currentFile := i.filepath, mode := .viewMode,
                         viewport := { m1.viewport with
                           Width := m1.width, Height := m1.height - 4 } }, .none, w1)
          | _ => forwardToList x w m msg
        else forwardToList x w m msg
      else if m.mode = .viewMode then
        if s = "q" then (m, .quit, w)
        else if s = "esc" ∨ s = "h" ∨ s = "left" then
          ({ m with mode := .normalMode }, .none, w)
        else
          ({ m with viewport := (x.viewportUpdate m.viewport msg).1 },
            (x.viewportUpdate m.viewport msg).2, w)
      else (m, .none, w)
    | .items l => ({ m with list := { m.list with items := l } }, .none, w)
    | .error e => ({ m with err := some e }, .none, w)
    | .other _ => (m, .none, w)

/-! ## Sample inputs -/

/-- Widgets that keep their state and issue no command, ASCII lower-casing,
and entries laid end to end as the archive bytes. -/
def sampleLib : Lib :=
  { listUpdate := fun l _ => (l, .none)
    textInputUpdate := fun t _ => (t, .none)
    viewportUpdate := fun v _ => (v, .none)
    toLower := Char.toLower
    zipBytes := fun es => (es.map (fun e => e.1 ++ e.2)).flatten }

/-- The default configuration for the home directory `/home/user`. -/
def sampleConfig : Config := defaultConfig ["home".toList, "user".toList]

/-- An empty root directory on 2024-03-05 at 14:07:00, no failing device. -/
def sampleWorld : World :=
  { fs := .dir true true [], now := ⟨2024, 3, 5, 14, 7, 0⟩,
    flockFails := false, writeFails := false, trace := [] }

/-- The controller in Compose with `text` in the input buffer. -/
def composeModel (text : GoString) : model :=
  { initialModel sampleConfig with
    mode := .addMode, textInput := { (initialModel sampleConfig).textInput with value := text } }

/-- The logs directory of the sample store: two daily logs, a text file that
is not a log, and a subdirectory with one older log. -/
def sampleLogs : Node :=
  .dir true true
    [("03-04-2024.md".toList, .file true true "- [09:00] Call Bob\n".toList),
     ("03-05-2024.md".toList, .file true true "- [14:07] bought milk\n".toList),
     ("notes.txt".toList, .file true true "todo".toList),
     ("old".toList, .dir true true
        [("01-01-2023.md".toList, .file true true "- [00:01] happy new year\n".toList)])]

/-- A store under `/home/user/.dailylog` holding `sampleLogs`. -/
def sampleStore : World :=
  { sampleWorld with
    fs := .dir true true [("home".toList, .dir true true [("user".toList, .dir true true
      [(".dailylog".toList, .dir true true [("logs".toList, sampleLogs)])])])] }

/-- The controller in Browse with `items` as the catalog. -/
def browseModel (items : List ListItem) : model :=
  { initialModel sampleConfig with list := { (initialModel sampleConfig).list with items := items } }

/-! ## The wording of the specification -/

/-- The log files of a listing: the listed names with extension `.md`, each
as its catalog entry, in listing order. -/
def listedLogs (config : Config) (files : List (GoString × Node)) : List ListItem :=
  (files.filter (fun f => Ext f.1 = ".md".toList)).map (fun f => logItem config f.1)

/-- The regular files of a tree in the order of a lexical walk, each with its
path (starting from `rel`, the path of the tree itself) and its bytes;
directories yield nothing of their own. -/
def regularFiles : Path → Node → List (Path × GoString)
  | rel, .file _ _ d => [(rel, d)]
  | rel, .dir _ _ es => go rel es
where
  /-- The regular files below the entries of a directory. -/
  go (rel : Path) : List (GoString × Node) → List (Path × GoString)
  | [] => []
  | (name, n) :: rest => regularFiles (rel ++ [name]) n ++ go rel rest

/-- Number of regular files of a tree. -/
def countFiles : Node → Nat
  | .file _ _ _ => 1
  | .dir _ _ es => go es
where
  /-- Number of regular files below the entries of a directory. -/
  go : List (GoString × Node) → Nat
  | [] => 0
  | (_, n) :: rest => countFiles n + go rest

/-- Every file of the tree can be read and every directory listed. -/
def allReadable : Node → Bool
  | .file r _ _ => r
  | .dir r _ es => r && go es
where
  /-- The same for the entries of a directory. -/
  go : List (GoString × Node) → Bool
  | [] => true
  | (_, n) :: rest => allReadable n && go rest

/-- The day's file for the date of `t`: `MM-DD-YYYY.md` in the logs directory. -/
def dayFile (config : Config) (t : Time) : Path :=
  Join config.BaseDir [config.MarkdownDir, t.formatDate ++ ".md".toList]

/-- The line of one note: `- [HH:MM] <text>` and a newline. -/
def noteLine (t : Time) (text : GoString) : GoString :=
  "- [".toList ++ t.formatClock ++ "] ".toList ++ text ++ "\n".toList

/-- The bytes held by the file at `p`, whatever its permissions; empty when
there is no file at `p`. -/
def contentAt (fs : Node) (p : Path) : GoString :=
  match fs.find p with
  | some (.file _ _ d) => d
  | _ => []

/-- Content contains `q` as a substring when compared case-insensitively:
some stretch of the content equals `q` once both are lower-cased. -/
def ContainsFold (x : Lib) (content q : GoString) : Prop :=
  ∃ pre mid suf, content = pre ++ mid ++ suf ∧ mid.map x.toLower = q.map x.toLower

/-- A catalog entry matches `q`: it is a log file whose content can be read
and contains `q` case-insensitively. -/
def Matches (x : Lib) (fs : Node) (q : GoString) (it : ListItem) : Prop :=
  ∃ i content, it = .note i ∧ ReadFile fs i.filepath = .ok content ∧ ContainsFold x content q

/-! ## Strings: basic facts -/

theorem one_le_runeLen (c : Char) : 1 ≤ runeLen c := by
  unfold runeLen
  split_ifs <;> omega

theorem length_le_len (s : GoString) : s.length ≤ len s := by
  induction s with
  | nil => simp [len]
  | cons c s ih =>
    have := one_le_runeLen c
    simp only [len, List.map_cons, List.sum_cons, List.length_cons] at ih ⊢
    omega

theorem TrimSpace_replicate (n : Nat) (c : Char) (hc : isSpace c = false) :
    TrimSpace (List.replicate n c) = List.replicate n c := by
  cases n with
  | zero => rfl
  | succ k =>
    have h1 : (List.replicate (k + 1) c).dropWhile isSpace = List.replicate (k + 1) c := by
      simp [List.replicate_succ, List.dropWhile_cons, hc]
    simp only [TrimSpace, h1, List.reverse_replicate]

theorem len_replicate (n : Nat) (c : Char) : len (List.replicate n c) = n * runeLen c := by
  simp [len]

/-! ## `saveNote`: rejected content -/

theorem saveNote_of_len_gt (config : Config) (w : World) (text : GoString)
    (hmax : 0 ≤ config.MaxNoteLen) (hlen : config.MaxNoteLen < (len (TrimSpace text) : Int)) :
    saveNote config w text = (some (.noteTooLong config.MaxNoteLen), w) := by
  have hne : TrimSpace text ≠ [] := by
    intro h0
    rw [h0] at hlen
    simp [len] at hlen
    omega
  simp [saveNote, hne, hlen]

/-- C2. When the trimmed text is longer than `MaxNoteLen` (a non-negative
maximum), counted in code points or in bytes, `saveNote` returns the
"note too long" error and the world is the one it was called in: the file tree
is the same and no system call was made (the trace is unchanged). -/
theorem saveNote_too_long_no_effect (config : Config) (w : World) (text : GoString)
    (hmax : 0 ≤ config.MaxNoteLen)
    (h : config.MaxNoteLen < ((TrimSpace text).length : Int) ∨
         config.MaxNoteLen < (len (TrimSpace text) : Int)) :
    saveNote config w text = (some (.noteTooLong config.MaxNoteLen), w) := by
  apply saveNote_of_len_gt config w text hmax
  rcases h with h | h
  · have := length_le_len (TrimSpace text)
    omega
  · exact h

/-- Witness for C2: 1001 letters against the default maximum of 1000. -/
theorem saveNote_too_long_no_effect_witness :
    saveNote sampleConfig sampleWorld (List.replicate 1001 'a') =
      (some (.noteTooLong sampleConfig.MaxNoteLen), sampleWorld) :=
  saveNote_too_long_no_effect sampleConfig sampleWorld (List.replicate 1001 'a')
    (by decide) (Or.inl (by
      rw [TrimSpace_replicate 1001 'a' (by decide), List.length_replicate]
      decide))

/-- C3, as stated, fails: for the empty text `saveNote` returns `nil`, not an error. -/
theorem saveNote_empty_returns_nil :
    (saveNote sampleConfig sampleWorld []).1 = none := by
  decide

/-- C3, amended. When the text is empty after trimming, `saveNote` returns
`nil` (no error) and the world is the one it was called in: the file tree is
the same and no system call was made. -/
theorem saveNote_blank_no_effect (config : Config) (w : World) (text : GoString)
    (h : TrimSpace text = []) :
    saveNote config w text = (none, w) := by
  simp [saveNote, h]

/-- Witness for the amended C3: a text of a blank, a tab and a newline. -/
theorem saveNote_blank_no_effect_witness :
    TrimSpace " \t\n".toList = [] ∧
      saveNote sampleConfig sampleWorld " \t\n".toList = (none, sampleWorld) :=
  ⟨by decide, saveNote_blank_no_effect sampleConfig sampleWorld " \t\n".toList (by decide)⟩

/-! ## `Update` -/

theorem saveNote_sample_too_long :
    (saveNote sampleConfig sampleWorld (List.replicate 1001 'a')).1 =
      some (.noteTooLong 1000) := by
  rw [saveNote_of_len_gt sampleConfig sampleWorld _ (by decide) (by
    rw [TrimSpace_replicate 1001 'a' (by decide), len_replicate]
    decide)]
  rfl

/-- C5. In Compose, on the key `enter`: when `saveNote` returns an error, the
returned state records that error, is still in Compose and has the same text
input (the buffer is intact); when it returns `nil`, the state is in Browse
with an empty buffer; and Browse is reached only when it returned `nil`. -/
theorem Update_compose_enter (x : Lib) (w : World) (m : model) (hmode : m.mode = .addMode) :
    (∀ err, (saveNote m.config w m.textInput.value).1 = some err →
        (Update x w m (.key "enter")).1.err = some err ∧
        (Update x w m (.key "enter")).1.mode = .addMode ∧
        (Update x w m (.key "enter")).1.textInput = m.textInput) ∧
    ((saveNote m.config w m.textInput.value).1 = none →
        (Update x w m (.key "enter")).1.mode = .normalMode ∧
        (Update x w m (.key "enter")).1.textInput.value = []) ∧
    ((Update x w m (.key "enter")).1.mode = .normalMode →
        (saveNote m.config w m.textInput.value).1 = none) := by
  have hne : ("enter" : String) ≠ "esc" := by decide
  rcases hs : saveNote m.config w m.textInput.value with ⟨r, w1⟩
  cases r with
  | none => simp [Update, hmode, hs, hne, TextInput.Reset]
  | some e => simp [Update, hmode, hs, hne]

/-- Witness for C5: 1001 letters in the buffer are rejected by `saveNote`,
and the controller stays in Compose. -/
theorem Update_compose_enter_witness :
    (composeModel (List.replicate 1001 'a')).mode = .addMode ∧
      (Update sampleLib sampleWorld (composeModel (List.replicate 1001 'a'))
        (.key "enter")).1.mode = .addMode :=
  ⟨rfl, ((Update_compose_enter sampleLib sampleWorld (composeModel (List.replicate 1001 'a'))
    rfl).1 (.noteTooLong 1000) saveNote_sample_too_long).2.1⟩

theorem Update_err_persists (x : Lib) (w : World) (m : model) (msg : Msg) (e : Error)
    (h : m.err = some e) : ∃ e1, (Update x w m msg).1.err = some e1 := by
  unfold Update forwardToList setViewportContent
  split_ifs <;> (repeat' split)
  all_goals simp_all
  all_goals (split <;> simp_all)

/-- C6, at a failing input: in Browse with a recorded error, the key `j`
(which causes no failure) returns a state in which the error is still recorded. -/
theorem Update_keeps_error :
    (Update sampleLib sampleWorld
      { initialModel sampleConfig with err := some (.os .ENOENT) } (.key "j")).1.err =
      some (.os .ENOENT) := by
  decide

/-- C7. The controller starts in Browse. For every state and message, with a
text-input widget that never issues the quit command: when `Update` changes
the mode, either the old mode is Browse and the new one is Compose or View, or
the new mode is Browse; the quit command is returned only from Browse or View;
and in Compose every key other than `esc` and `enter` leaves the mode Compose. -/
theorem Update_mode_transitions (x : Lib)
    (hti : ∀ t msg, (x.textInputUpdate t msg).2 ≠ Cmd.quit)
    (config : Config) (w : World) (m : model) (msg : Msg) :
    (initialModel config).mode = .normalMode ∧
    ((Update x w m msg).1.mode ≠ m.mode →
      (m.mode = .normalMode ∧
        ((Update x w m msg).1.mode = .addMode ∨ (Update x w m msg).1.mode = .viewMode)) ∨
      (Update x w m msg).1.mode = .normalMode) ∧
    ((Update x w m msg).2.1 = .quit → m.mode = .normalMode ∨ m.mode = .viewMode) ∧
    (m.mode = .addMode → ∀ s : String, s ≠ "esc" → s ≠ "enter" →
      (Update x w m (.key s)).1.mode = .addMode) := by
  refine ⟨rfl, ?_, ?_, ?_⟩
  · unfold Update forwardToList setViewportContent
    split_ifs <;> (repeat' split)
    all_goals simp_all
    all_goals (split <;> simp_all)
  · unfold Update forwardToList setViewportContent
    have h1 := hti m.textInput msg
    split_ifs <;> (repeat' split)
    all_goals simp_all
  · intro hm s h1 h2
    simp [Update, hm, h1, h2]

/-- Witness for C7: the sample text input issues no command, and the key `q`
is pressed in Browse. -/
theorem Update_mode_transitions_witness :
    (∀ t msg, (sampleLib.textInputUpdate t msg).2 ≠ Cmd.quit) ∧
    ((Update sampleLib sampleWorld (initialModel sampleConfig) (.key "q")).2.1 = .quit →
      (initialModel sampleConfig).mode = .normalMode ∨
        (initialModel sampleConfig).mode = .viewMode) :=
  ⟨fun _ _ h => Cmd.noConfusion h,
   (Update_mode_transitions sampleLib (fun _ _ h => Cmd.noConfusion h) sampleConfig sampleWorld
      (initialModel sampleConfig) (.key "q")).2.2.1⟩

/-! ## `loadFiles` -/

theorem swap_ends {α : Type} (pre mid suf : List α) (a b : α) (h : pre.length = suf.length) :
    swap (pre ++ a :: mid ++ b :: suf) pre.length
        ((pre ++ a :: mid ++ b :: suf).length - 1 - pre.length) =
      pre ++ b :: mid ++ a :: suf := by
  have hj : (pre ++ a :: mid ++ b :: suf).length - 1 - pre.length =
      pre.length + (mid.length + 1) := by
    simp only [List.length_append, List.length_cons]
    omega
  rw [hj]
  have h1 : (pre ++ a :: mid ++ b :: suf).get? pre.length = some a := by
    rw [List.get?_eq_getElem?, List.append_assoc, List.getElem?_append_right (le_refl _)]
    simp
  have h2 : (pre ++ a :: mid ++ b :: suf).get? (pre.length + (mid.length + 1)) = some b := by
    rw [List.get?_eq_getElem?, List.append_assoc, List.getElem?_append_right (by omega)]
    have e : pre.length + (mid.length + 1) - pre.length = (a :: mid).length := by
      simp only [List.length_cons]
      omega
    rw [e, List.getElem?_append_right (le_refl _)]
    simp
  simp only [swap, h1, h2]
  simp [List.append_assoc, List.set_append]

/-- With `pre.length` swaps done, the loop reverses what lies between the
swapped ends. -/
theorem swapLoop_mid {α : Type} : ∀ (n : Nat) (mid pre suf : List α) (fuel : Nat),
    mid.length = n → pre.length = suf.length → mid.length / 2 ≤ fuel →
    swapLoop fuel pre.length (pre ++ mid ++ suf) = pre ++ mid.reverse ++ suf := by
  intro n
  induction n using Nat.strong_induction_on with
  | _ n ih =>
    intro mid pre suf fuel hn hps hfuel
    have hstop : ∀ l : List α, l.length ≤ 1 →
        swapLoop fuel pre.length (pre ++ l ++ suf) = pre ++ l ++ suf := by
      intro l hl
      cases fuel with
      | zero => rfl
      | succ f =>
        have : ¬ pre.length < (pre ++ l ++ suf).length / 2 := by
          simp only [List.length_append]
          omega
        simp only [swapLoop, this, if_false]
    match mid, hn with
    | [], _ => simpa using hstop [] (by simp)
    | [a], _ => simpa using hstop [a] (by simp)
    | a :: c :: t, hn =>
      obtain ⟨m, b, hm⟩ : ∃ m b, c :: t = m ++ [b] := by
        rcases List.eq_nil_or_concat (c :: t) with h | ⟨m, b, h⟩
        · simp at h
        · exact ⟨m, b, by simpa using h⟩
      rw [hm] at hn hfuel ⊢
      simp only [List.length_cons, List.length_append, List.length_nil] at hn hfuel
      cases fuel with
      | zero => omega
      | succ f =>
        have hcond : pre.length < (pre ++ a :: (m ++ [b]) ++ suf).length / 2 := by
          simp only [List.length_append, List.length_cons, List.length_nil]
          omega
        have hform : pre ++ a :: (m ++ [b]) ++ suf = pre ++ a :: m ++ b :: suf := by simp
        rw [swapLoop, if_pos hcond]
        simp only []
        rw [hform, swap_ends pre m suf a b hps]
        have hrec := ih m.length (by omega) m (pre ++ [b]) (a :: suf) f rfl (by simp [hps])
          (by omega)
        have e1 : pre.length + 1 = (pre ++ [b]).length := by simp
        have e2 : pre ++ b :: m ++ a :: suf = pre ++ [b] ++ m ++ a :: suf := by simp
        rw [e1, e2, hrec]
        simp

theorem swapLoop_reverse {α : Type} (items : List α) :
    swapLoop items.length 0 items = items.reverse := by
  have h := swapLoop_mid items.length items [] [] items.length rfl rfl (Nat.div_le_self _ _)
  simpa using h

theorem collectItems_eq (config : Config) (files : List (GoString × Node)) :
    ∀ items, collectItems config files items = items ++ listedLogs config files := by
  induction files with
  | nil => intro items; simp [collectItems, listedLogs]
  | cons f rest ih =>
    intro items
    unfold collectItems
    by_cases h : Ext f.1 = ".md".toList
    · rw [if_pos h, ih]
      simp only [listedLogs, List.filter_cons, h, decide_True, if_true, List.map_cons,
        List.append_assoc, List.singleton_append]
    · rw [if_neg h, ih]
      simp only [listedLogs, List.filter_cons, h, decide_False]
      rfl

/-- C10. When the directory listing succeeds with `files`, `loadFiles`
returns the listed log files in exactly reversed listing order, with the same
length and the same elements; and the swap loop, run on any list of items with
its length as fuel, returns the reversed list. -/
theorem loadFiles_reverses_listing (config : Config) (w : World)
    (files : List (GoString × Node))
    (h : ReadDir w.fs (Join config.BaseDir [config.MarkdownDir]) = .ok files) :
    (loadFiles config w).1 = .items (listedLogs config files).reverse ∧
    (listedLogs config files).reverse.length = (listedLogs config files).length ∧
    (listedLogs config files).reverse.Perm (listedLogs config files) ∧
    ∀ items : List ListItem, swapLoop items.length 0 items = items.reverse := by
  refine ⟨?_, List.length_reverse _, List.reverse_perm _, swapLoop_reverse⟩
  have h1 : ReadDir (w.log (.readDir (Join config.BaseDir [config.MarkdownDir]))).fs
      (Join config.BaseDir [config.MarkdownDir]) = .ok files := h
  simp only [loadFiles, h1, collectItems_eq, List.nil_append, swapLoop_reverse]

/-- Witness for C10: the sample store lists two logs among four names. -/
theorem loadFiles_reverses_listing_witness :
    (loadFiles sampleConfig sampleStore).1 =
      .items [logItem sampleConfig "03-05-2024.md".toList,
              logItem sampleConfig "03-04-2024.md".toList] :=
  (loadFiles_reverses_listing sampleConfig sampleStore _ rfl).1

/-! ## `search` -/

theorem HasPrefix_iff (s p : GoString) : HasPrefix s p = true ↔ p <+: s := by
  induction p generalizing s with
  | nil => simp [HasPrefix]
  | cons a p ih =>
    cases s with
    | nil => simp [HasPrefix]
    | cons c s =>
      simp only [HasPrefix, Bool.and_eq_true, beq_iff_eq, ih, List.cons_prefix_cons]
      constructor
      · rintro ⟨h1, h2⟩
        exact ⟨h1.symm, h2⟩
      · rintro ⟨h1, h2⟩
        exact ⟨h1.symm, h2⟩

theorem Contains_iff (s sub : GoString) : Contains s sub = true ↔ sub <:+: s := by
  induction s with
  | nil =>
    simp only [Contains, HasPrefix_iff, List.prefix_nil, List.infix_nil]
  | cons c s ih =>
    simp only [Contains, Bool.or_eq_true, HasPrefix_iff, ih, List.infix_cons_iff]

theorem infix_map_iff (x : Lib) (content q : GoString) :
    q.map x.toLower <:+: content.map x.toLower ↔ ContainsFold x content q := by
  constructor
  · rintro ⟨a, b, h⟩
    have h1 : content.map x.toLower = a ++ (q.map x.toLower ++ b) := by
      rw [← h, List.append_assoc]
    obtain ⟨pre, r, hc, ha, hr⟩ := List.map_eq_append_iff.mp h1
    obtain ⟨mid, suf, hr2, hm, _⟩ := List.map_eq_append_iff.mp hr
    exact ⟨pre, mid, suf, by rw [hc, hr2, List.append_assoc], hm⟩
  · rintro ⟨pre, mid, suf, hc, hm⟩
    refine ⟨pre.map x.toLower, suf.map x.toLower, ?_⟩
    rw [hc, ← hm]
    simp

theorem searchTest_iff (x : Lib) (fs : Node) (q : GoString) (it : ListItem) :
    searchTest x fs (ToLower x q) it = true ↔ Matches x fs q it := by
  cases it with
  | foreign t => simp [Matches, searchTest]
  | note i =>
    cases hr : ReadFile fs i.filepath with
    | error e => simp [Matches, searchTest, hr]
    | ok content =>
      simp only [searchTest, hr, Matches, ToLower, Contains_iff, infix_map_iff,
        ListItem.note.injEq]
      constructor
      · intro h
        exact ⟨i, content, rfl, hr, h⟩
      · rintro ⟨j, c, hj, hc, h⟩
        subst hj
        rw [hr] at hc
        cases hc
        exact h

theorem searchLoop_eq (x : Lib) (query : GoString) (fs : Node) :
    ∀ (items : List ListItem) (w : World) (results : List ListItem), w.fs = fs →
      (searchLoop x query items w results).1 = results ++ items.filter (searchTest x fs query) ∧
      (searchLoop x query items w results).2.fs = fs := by
  intro items
  induction items with
  | nil => intro w results hw; simp [searchLoop, hw]
  | cons it rest ih =>
    intro w results hw
    cases it with
    | foreign t =>
      have := ih w results hw
      simp [searchLoop, searchTest, this]
    | note i =>
      have hw1 : (w.log (.readFile i.filepath)).fs = fs := hw
      cases hr : ReadFile fs i.filepath with
      | error e =>
        have := ih (w.log (.readFile i.filepath)) results hw1
        simp [searchLoop, searchTest, hw1, hr, this]
      | ok content =>
        by_cases hc : Contains (ToLower x content) query = true
        · have := ih (w.log (.readFile i.filepath)) (results ++ [.note i]) hw1
          simp [searchLoop, searchTest, hw1, hr, hc, this]
        · have := ih (w.log (.readFile i.filepath)) results hw1
          simp [searchLoop, searchTest, hw1, hr, hc, this]

/-- C9. `search` with the empty query returns the catalog as it is. With a
non-empty query `q` it returns the catalog filtered, in catalog order, by a
test that holds exactly of the entries whose file can be read and whose
content contains `q` case-insensitively; the result is a sub-sequence of the
catalog, and an unreadable file never fails the search (a list is returned
for every catalog and file tree). -/
theorem search_filters_catalog (x : Lib) (w : World) (m : model) (q : GoString) :
    search x w m [] = (m.list.items, w) ∧
    (q ≠ [] →
      ∃ p : ListItem → Bool, (∀ it, p it = true ↔ Matches x w.fs q it) ∧
        (search x w m q).1 = m.list.items.filter p ∧
        (search x w m q).1.Sublist m.list.items) := by
  refine ⟨by simp [search], ?_⟩
  intro hq
  refine ⟨searchTest x w.fs (ToLower x q), fun it => searchTest_iff x w.fs q it, ?_⟩
  have h := (searchLoop_eq x (ToLower x q) w.fs m.list.items w [] rfl).1
  have hs : (search x w m q).1 = m.list.items.filter (searchTest x w.fs (ToLower x q)) := by
    simpa [search, hq] using h
  exact ⟨hs, hs ▸ List.filter_sublist _⟩

/-- Witness for C9: the query `BOB` over a catalog of two logs and a missing file. -/
theorem search_filters_catalog_witness :
    "BOB".toList ≠ [] ∧
    (search sampleLib sampleStore
      (browseModel [logItem sampleConfig "03-05-2024.md".toList,
        logItem sampleConfig "03-04-2024.md".toList, logItem sampleConfig "gone.md".toList])
      "BOB".toList).1.Sublist
      [logItem sampleConfig "03-05-2024.md".toList,
        logItem sampleConfig "03-04-2024.md".toList, logItem sampleConfig "gone.md".toList] :=
  ⟨by decide, by
    obtain ⟨_, _, _, h⟩ := (search_filters_catalog sampleLib sampleStore
      (browseModel [logItem sampleConfig "03-05-2024.md".toList,
        logItem sampleConfig "03-04-2024.md".toList, logItem sampleConfig "gone.md".toList])
      "BOB".toList).2 (by decide)
    exact h⟩

/-- The sample search evaluated: only the log that mentions Bob is returned. -/
theorem search_sample :
    (search sampleLib sampleStore
      (browseModel [logItem sampleConfig "03-05-2024.md".toList,
        logItem sampleConfig "03-04-2024.md".toList, logItem sampleConfig "gone.md".toList])
      "BOB".toList).1 = [logItem sampleConfig "03-04-2024.md".toList] := by
  decide

/-! ## `backup` -/

theorem Rel_append (base rel : Path) : Rel base (base ++ rel) = some rel := by
  induction base with
  | nil => simp [Rel]
  | cons b bs ih => simp [Rel, ih]

theorem zipWrite_zipCreate (entries : List (GoString × GoString)) (name content : GoString) :
    zipWrite (zipCreate entries name) content = entries ++ [(name, content)] := by
  induction entries with
  | nil => simp [zipCreate, zipWrite]
  | cons e rest ih =>
    cases rest with
    | nil => simp [zipCreate, zipWrite]
    | cons f rest2 =>
      simp only [zipCreate, List.cons_append] at ih ⊢
      simp only [zipWrite, ih]

mutual
theorem walk_ok (config : Config) : ∀ (n : Node) (rel : Path) (st : WalkState),
    allReadable n = true →
    ∃ tr, walk config (config.BaseDir ++ rel) n st =
      (none, { entries := st.entries ++
        (regularFiles rel n).map (fun f => (pathString f.1, f.2)), trace := tr })
  | .file r w d, rel, st, h => by
    simp only [allReadable] at h
    simp [walk, backupWalkFn, Rel_append, readNode, h, regularFiles, zipWrite_zipCreate]
  | .dir r w es, rel, st, h => by
    simp only [allReadable, Bool.and_eq_true] at h
    obtain ⟨tr, htr⟩ := entries_ok config es rel
      { st with trace := st.trace ++ [.readDir (config.BaseDir ++ rel)] } h.2
    refine ⟨tr, ?_⟩
    simp [walk, backupWalkFn, h.1, htr, regularFiles]
theorem entries_ok (config : Config) : ∀ (es : List (GoString × Node)) (rel : Path)
    (st : WalkState), allReadable.go es = true →
    ∃ tr, walk.entries config (config.BaseDir ++ rel) es st =
      (none, { entries := st.entries ++
        (regularFiles.go rel es).map (fun f => (pathString f.1, f.2)), trace := tr })
  | [], rel, st, _ => ⟨st.trace, by simp [walk.entries, regularFiles.go]⟩
  | (name, n) :: rest, rel, st, h => by
    simp only [allReadable.go, Bool.and_eq_true] at h
    obtain ⟨tr1, h1⟩ := walk_ok config n (rel ++ [name])
      { st with trace := st.trace ++ [.lstat (Join (config.BaseDir ++ rel) [name])] } h.1
    obtain ⟨tr2, h2⟩ := entries_ok config rest rel
      { entries := st.entries ++
          (regularFiles (rel ++ [name]) n).map (fun f => (pathString f.1, f.2)),
        trace := tr1 } h.2
    refine ⟨tr2, ?_⟩
    have hj : Join (config.BaseDir ++ rel) [name] = config.BaseDir ++ (rel ++ [name]) := by
      simp [Join]
    simp only [walk.entries, hj]
    rw [hj] at h1
    simp only [h1, h2, regularFiles.go, List.map_append, List.append_assoc]
end

theorem regularFiles_length : ∀ (n : Node) (rel : Path),
    (regularFiles rel n).length = countFiles n
  | .file _ _ _, _ => by simp [regularFiles, countFiles]
  | .dir _ _ es, rel => by
    simp only [regularFiles, countFiles]
    exact go es rel
where
  go : ∀ (es : List (GoString × Node)) (rel : Path),
    (regularFiles.go rel es).length = countFiles.go es
  | [], _ => by simp [regularFiles.go, countFiles.go]
  | (name, n) :: rest, rel => by
    simp only [regularFiles.go, countFiles.go, List.length_append,
      regularFiles_length n (rel ++ [name]), go rest rel]

theorem findEntry_setEntry_ne (a b : GoString) (n : Node) (hab : a ≠ b) :
    ∀ es, findEntry b (setEntry a n es) = findEntry b es := by
  intro es
  induction es with
  | nil => rfl
  | cons e rest ih =>
    obtain ⟨k, v⟩ := e
    by_cases hk : k = a
    · subst hk
      simp [setEntry, findEntry, hab]
    · simp only [setEntry, hk, if_false, findEntry, ih]

theorem findEntry_insertEntry_ne (a b : GoString) (n : Node) (hab : a ≠ b) :
    ∀ es, findEntry b (insertEntry a n es) = findEntry b es := by
  intro es
  induction es with
  | nil => simp [insertEntry, findEntry, hab]
  | cons e rest ih =>
    obtain ⟨k, v⟩ := e
    by_cases hk : a < k
    · simp [insertEntry, hk, findEntry, hab]
    · simp only [insertEntry, hk, if_false, findEntry, ih]

theorem findEntry_setEntry_self (a : GoString) (n c : Node) :
    ∀ es, findEntry a es = some c → findEntry a (setEntry a n es) = some n := by
  intro es
  induction es with
  | nil => simp [findEntry]
  | cons e rest ih =>
    obtain ⟨k, v⟩ := e
    by_cases hk : k = a
    · simp [setEntry, findEntry, hk]
    · simp only [setEntry, findEntry, hk, if_false]
      exact ih

/-- Creating directories along `base/a/...` leaves `base/b` as it is, for `b ≠ a`. -/
theorem MkdirAll_frame (a b : GoString) (rest : Path) (t : Node) (hab : a ≠ b) :
    ∀ (base : Path) (fs fs1 : Node), fs.find (base ++ [b]) = some t →
      MkdirAll fs (base ++ a :: rest) = .ok fs1 → fs1.find (base ++ [b]) = some t := by
  intro base
  induction base with
  | nil =>
    intro fs fs1 hf hm
    cases fs with
    | file r w d => simp [Node.find] at hf
    | dir r w es =>
      simp only [List.nil_append, Node.find] at hf ⊢
      simp only [List.nil_append, MkdirAll] at hm
      cases hfa : findEntry a es with
      | none =>
        simp only [hfa] at hm
        cases w with
        | false => simp at hm
        | true =>
          cases h2 : MkdirAll (.dir true true []) rest with
          | error e => simp [h2] at hm
          | ok c1 =>
            simp only [h2, if_true, Except.ok.injEq] at hm
            subst hm
            simpa [Node.find, findEntry_insertEntry_ne a b c1 hab] using hf
      | some c =>
        simp only [hfa] at hm
        cases h2 : MkdirAll c rest with
        | error e => simp [h2] at hm
        | ok c1 =>
          simp only [h2, Except.ok.injEq] at hm
          subst hm
          simpa [Node.find, findEntry_setEntry_ne a b c1 hab] using hf
  | cons x base ih =>
    intro fs fs1 hf hm
    cases fs with
    | file r w d => simp [Node.find] at hf
    | dir r w es =>
      simp only [List.cons_append, Node.find] at hf ⊢
      simp only [List.cons_append, MkdirAll] at hm
      cases hfx : findEntry x es with
      | none => simp [hfx] at hf
      | some c =>
        simp only [hfx, List.append_eq] at hf hm
        cases h2 : MkdirAll c (base ++ a :: rest) with
        | error e => simp [h2] at hm
        | ok c1 =>
          simp only [h2, Except.ok.injEq] at hm
          subst hm
          simp only [Node.find, findEntry_setEntry_self x c1 c es hfx]
          exact ih c c1 hf h2

theorem OpenFile_shape (trunc : Bool) (r w : Bool) (es : List (GoString × Node))
    (a : GoString) (rest : Path) (fs1 : Node)
    (h : OpenFile trunc (.dir r w es) (a :: rest) = .ok fs1) :
    ∃ n, fs1 = .dir r w (setEntry a n es) ∨ fs1 = .dir r w (insertEntry a n es) := by
  simp only [OpenFile] at h
  cases hfa : findEntry a es with
  | none =>
    simp only [hfa] at h
    cases rest with
    | nil =>
      cases w with
      | false => simp at h
      | true =>
        simp only [if_true, Except.ok.injEq] at h
        exact ⟨_, Or.inr h.symm⟩
    | cons y p => simp at h
  | some c =>
    simp only [hfa] at h
    cases rest with
    | nil =>
      cases c with
      | dir cr cw ces => simp at h
      | file fr fw d =>
        cases fw with
        | false => simp at h
        | true =>
          simp only [if_true, Except.ok.injEq] at h
          exact ⟨_, Or.inl h.symm⟩
    | cons y p =>
      cases h2 : OpenFile trunc c (y :: p) with
      | error e => simp [h2] at h
      | ok c1 =>
        simp only [h2, Except.ok.injEq] at h
        exact ⟨_, Or.inl h.symm⟩

theorem OpenFile_descend (trunc : Bool) (r w : Bool) (es : List (GoString × Node))
    (x y : GoString) (p : Path) (c fs1 : Node) (hfx : findEntry x es = some c)
    (h : OpenFile trunc (.dir r w es) (x :: y :: p) = .ok fs1) :
    ∃ c1, OpenFile trunc c (y :: p) = .ok c1 ∧ fs1 = .dir r w (setEntry x c1 es) := by
  simp only [OpenFile, hfx] at h
  cases h2 : OpenFile trunc c (y :: p) with
  | error e => simp [h2] at h
  | ok c1 =>
    simp only [h2, Except.ok.injEq] at h
    exact ⟨c1, rfl, h.symm⟩

/-- Opening or creating the file `base/a/...` leaves `base/b` as it is, for `b ≠ a`. -/
theorem OpenFile_frame (trunc : Bool) (a b : GoString) (rest : Path) (t : Node) (hab : a ≠ b) :
    ∀ (base : Path) (fs fs1 : Node), fs.find (base ++ [b]) = some t →
      OpenFile trunc fs (base ++ a :: rest) = .ok fs1 → fs1.find (base ++ [b]) = some t := by
  intro base
  induction base with
  | nil =>
    intro fs fs1 hf hm
    cases fs with
    | file r w d => simp [Node.find] at hf
    | dir r w es =>
      simp only [List.nil_append, Node.find] at hf ⊢
      obtain ⟨n, hn | hn⟩ := OpenFile_shape trunc r w es a rest fs1 hm
      · subst hn
        simpa [Node.find, findEntry_setEntry_ne a b n hab] using hf
      · subst hn
        simpa [Node.find, findEntry_insertEntry_ne a b n hab] using hf
  | cons x base ih =>
    intro fs fs1 hf hm
    cases fs with
    | file r w d => simp [Node.find] at hf
    | dir r w es =>
      simp only [List.cons_append, Node.find] at hf ⊢
      cases hfx : findEntry x es with
      | none => simp [hfx] at hf
      | some c =>
        simp only [hfx, List.append_eq] at hf
        obtain ⟨y, p, hyp⟩ : ∃ y p, base ++ a :: rest = y :: p := by
          cases base with
          | nil => exact ⟨a, rest, rfl⟩
          | cons z zs => exact ⟨z, zs ++ a :: rest, rfl⟩
        rw [List.cons_append, hyp] at hm
        obtain ⟨c1, hc1, hfs⟩ := OpenFile_descend trunc r w es x y p c fs1 hfx hm
        subst hfs
        simp only [Node.find, findEntry_setEntry_self x c1 c es hfx]
        rw [← hyp] at hc1
        exact ih c c1 hf hc1

/-- C8. Let the logs directory `t` of the store hold only readable files and
listable directories, and let the backups directory and the archive file be
creatable. Then `backup` returns `nil`, and the entries written to the archive
are exactly the regular files of `t` in walk order, one entry per file: each is
named by the file's path relative to `BaseDir` (starting with `MarkdownDir`)
and holds the file's bytes. Their number is the number of regular files of
`t`; directories contribute no entry. -/
theorem backup_archives_every_file (x : Lib) (config : Config) (w : World)
    (t fs1 fs2 : Node)
    (hlogs : w.fs.find (Join config.BaseDir [config.MarkdownDir]) = some t)
    (hread : allReadable t = true)
    (hne : "backups".toList ≠ config.MarkdownDir)
    (hmk : MkdirAll w.fs (Join config.BaseDir ["backups".toList]) = .ok fs1)
    (hcr : OpenFile true fs1 (Join (Join config.BaseDir ["backups".toList])
        ["backup-".toList ++ w.now.formatStamp ++ ".zip".toList]) = .ok fs2) :
    (backupRun x config w).1 = none ∧
    (backup x config w).1 = none ∧
    (backupRun x config w).2.1 =
      (regularFiles [config.MarkdownDir] t).map (fun f => (pathString f.1, f.2)) ∧
    (backupRun x config w).2.1.length = countFiles t := by
  have hf1 : fs1.find (config.BaseDir ++ [config.MarkdownDir]) = some t :=
    MkdirAll_frame _ _ [] t hne config.BaseDir w.fs fs1 hlogs hmk
  have hf2 : fs2.find (config.BaseDir ++ [config.MarkdownDir]) = some t := by
    refine OpenFile_frame true _ _ ["backup-".toList ++ w.now.formatStamp ++ ".zip".toList]
      t hne config.BaseDir fs1 fs2 hf1 ?_
    simpa [Join] using hcr
  obtain ⟨tr, hw⟩ := walk_ok config t [config.MarkdownDir]
    { entries := [], trace := (w.trace ++ [.mkdirAll (Join config.BaseDir ["backups".toList])] ++
        [.create (Join (Join config.BaseDir ["backups".toList])
          ["backup-".toList ++ w.now.formatStamp ++ ".zip".toList])]) ++
        [.lstat (Join config.BaseDir [config.MarkdownDir])] } hread
  have hrun : (backupRun x config w).1 = none ∧ (backupRun x config w).2.1 =
      (regularFiles [config.MarkdownDir] t).map (fun f => (pathString f.1, f.2)) := by
    have hf3 : fs2.find (Join config.BaseDir [config.MarkdownDir]) = some t := hf2
    simp only [backupRun, World.log]
    simp only [hmk, hcr, Walk, hf3]
    simp only [Join] at hw ⊢
    simp only [hw]
    simp
  exact ⟨hrun.1, hrun.1, hrun.2, by rw [hrun.2, List.length_map, regularFiles_length]⟩

/-- Witness for C8: the sample store has four regular files under `logs/`,
one of them in a subdirectory and one that is not a `.md` file. -/
theorem backup_archives_every_file_witness :
    allReadable sampleLogs = true ∧
    (backupRun sampleLib sampleConfig sampleStore).1 = none ∧
    (backupRun sampleLib sampleConfig sampleStore).2.1 =
      [("logs/03-04-2024.md".toList, "- [09:00] Call Bob\n".toList),
       ("logs/03-05-2024.md".toList, "- [14:07] bought milk\n".toList),
       ("logs/notes.txt".toList, "todo".toList),
       ("logs/old/01-01-2023.md".toList, "- [00:01] happy new year\n".toList)] :=
  ⟨by decide,
   (backup_archives_every_file sampleLib sampleConfig sampleStore sampleLogs _ _
      rfl (by decide) (by decide) rfl rfl).1,
   (backup_archives_every_file sampleLib sampleConfig sampleStore sampleLogs _ _
      rfl (by decide) (by decide) rfl rfl).2.2.1⟩

/-! ## `saveNote`: accepted content -/

theorem findEntry_insertEntry_self (a : GoString) (n : Node) :
    ∀ es, findEntry a es = none → findEntry a (insertEntry a n es) = some n := by
  intro es
  induction es with
  | nil => simp [insertEntry, findEntry]
  | cons e rest ih =>
    obtain ⟨k, v⟩ := e
    intro h
    by_cases hk : k = a
    · simp [findEntry, hk] at h
    · simp only [findEntry, hk, if_false] at h
      by_cases hlt : a < k
      · simp [insertEntry, hlt, findEntry]
      · simp only [insertEntry, hlt, if_false, findEntry, hk]
        exact ih h

theorem find_empty_dir (r w : Bool) (x : GoString) (p : Path) :
    (Node.dir r w []).find (x :: p) = none := by
  simp [Node.find, findEntry]

/-- Creating the directories of `q` changes nothing directly inside `q`. -/
theorem MkdirAll_find_child (name : GoString) :
    ∀ (q : Path) (fs fs1 : Node), MkdirAll fs q = .ok fs1 →
      fs1.find (q ++ [name]) = fs.find (q ++ [name]) := by
  intro q
  induction q with
  | nil =>
    intro fs fs1 h
    cases fs with
    | file r w d => simp [MkdirAll] at h
    | dir r w es =>
      simp only [MkdirAll, Except.ok.injEq] at h
      rw [← h]
  | cons x q ih =>
    intro fs fs1 h
    cases fs with
    | file r w d => simp [MkdirAll] at h
    | dir r w es =>
      simp only [MkdirAll] at h
      cases hfx : findEntry x es with
      | none =>
        simp only [hfx] at h
        cases w with
        | false => simp at h
        | true =>
          cases h2 : MkdirAll (.dir true true []) q with
          | error e => simp [h2] at h
          | ok c1 =>
            simp only [h2, if_true, Except.ok.injEq] at h
            subst h
            have := ih _ _ h2
            simp only [List.cons_append, Node.find, hfx, findEntry_insertEntry_self x c1 es hfx,
              List.append_eq]
            rw [this]
            cases q <;> simp [Node.find, findEntry]
      | some c =>
        simp only [hfx] at h
        cases h2 : MkdirAll c q with
        | error e => simp [h2] at h
        | ok c1 =>
          simp only [h2, Except.ok.injEq] at h
          subst h
          simp only [List.cons_append, Node.find, hfx, findEntry_setEntry_self x c1 c es hfx,
            List.append_eq]
          exact ih _ _ h2

/-- After `OpenFile` without truncation the path holds a writable regular
file: the one that was there, or a new empty one. -/
theorem OpenFile_find :
    ∀ (p : Path) (fs fs2 : Node), OpenFile false fs p = .ok fs2 →
      ∃ r d, fs2.find p = some (.file r true d) ∧
        (fs.find p = some (.file r true d) ∨ (fs.find p = none ∧ d = [] ∧ r = true)) := by
  intro p
  induction p with
  | nil =>
    intro fs fs2 h
    cases fs <;> simp [OpenFile] at h
  | cons x p ih =>
    intro fs fs2 h
    cases fs with
    | file r w d => simp [OpenFile] at h
    | dir r w es =>
      simp only [OpenFile] at h
      cases hfx : findEntry x es with
      | none =>
        simp only [hfx] at h
        cases p with
        | cons y p2 => simp at h
        | nil =>
          cases w with
          | false => simp at h
          | true =>
            simp only [if_true, Except.ok.injEq] at h
            subst h
            refine ⟨true, [], ?_, Or.inr ⟨?_, rfl, rfl⟩⟩
            · simp [Node.find, findEntry_insertEntry_self x _ es hfx]
            · simp [Node.find, hfx]
      | some c =>
        simp only [hfx] at h
        cases p with
        | nil =>
          cases c with
          | dir cr cw ces => simp at h
          | file fr fw d =>
            cases fw with
            | false => simp at h
            | true =>
              simp only [if_true, Except.ok.injEq] at h
              subst h
              refine ⟨fr, d, ?_, Or.inl ?_⟩
              · simp [Node.find, findEntry_setEntry_self x _ _ es hfx]
              · simp [Node.find, hfx]
        | cons y p2 =>
          cases h2 : OpenFile false c (y :: p2) with
          | error e => simp [h2] at h
          | ok c1 =>
            simp only [h2, Except.ok.injEq] at h
            subst h
            obtain ⟨r1, d1, hf, hprev⟩ := ih c c1 h2
            refine ⟨r1, d1, ?_, ?_⟩
            · simp only [Node.find, findEntry_setEntry_self x c1 c es hfx]
              exact hf
            · simpa only [Node.find, hfx] using hprev

theorem appendAt_find (s : GoString) (r w : Bool) (d : GoString) :
    ∀ (p : Path) (fs : Node), fs.find p = some (.file r w d) →
      ∃ fs3, appendAt fs p s = .ok fs3 ∧ fs3.find p = some (.file r w (d ++ s)) := by
  intro p
  induction p with
  | nil =>
    intro fs h
    simp only [Node.find, Option.some.injEq] at h
    subst h
    exact ⟨_, rfl, rfl⟩
  | cons x p ih =>
    intro fs h
    cases fs with
    | file fr fw fd => simp [Node.find] at h
    | dir dr dw es =>
      simp only [Node.find] at h
      cases hfx : findEntry x es with
      | none => simp [hfx] at h
      | some c =>
        simp only [hfx] at h
        obtain ⟨c3, hc3, hf3⟩ := ih c h
        refine ⟨.dir dr dw (setEntry x c3 es), ?_, ?_⟩
        · simp [appendAt, hfx, hc3]
        · simp only [Node.find, findEntry_setEntry_self x c3 c es hfx]
          exact hf3

theorem Dir_dayFile (config : Config) (t : Time) :
    Dir (dayFile config t) = Join config.BaseDir [config.MarkdownDir] := by
  simp only [Dir, dayFile, Join]
  rw [show config.BaseDir ++ [config.MarkdownDir, t.formatDate ++ ".md".toList] =
    (config.BaseDir ++ [config.MarkdownDir]) ++ [t.formatDate ++ ".md".toList] by simp]
  exact List.dropLast_concat

theorem runeLen_le_four (c : Char) : runeLen c ≤ 4 := by
  unfold runeLen
  split_ifs <;> omega

theorem len_le_four_mul_length (s : GoString) : len s ≤ 4 * s.length := by
  induction s with
  | nil => simp [len]
  | cons c s ih =>
    have := runeLen_le_four c
    simp only [len, List.map_cons, List.sum_cons, List.length_cons] at ih ⊢
    omega

theorem TrimSpace_length_le (s : GoString) : (TrimSpace s).length ≤ s.length := by
  simp only [TrimSpace, List.length_reverse]
  exact le_trans (List.Sublist.length_le (List.dropWhile_sublist _))
    (by
      rw [List.length_reverse]
      exact List.Sublist.length_le (List.dropWhile_sublist _))

/-- What the input buffer can hold is never too long: a text of at most 156
code points (`CharLimit`) has at most 624 bytes after trimming, within every
maximum of 624 or more, the default 1000 among them. -/
theorem input_within_limit (config : Config) (text : GoString)
    (h : text.length ≤ 156) (hmax : 624 ≤ config.MaxNoteLen) :
    (len (TrimSpace text) : Int) ≤ config.MaxNoteLen := by
  have h1 := len_le_four_mul_length (TrimSpace text)
  have h2 := TrimSpace_length_le text
  omega

/-- C1, as stated, fails: 501 letters `é` are 501 characters, within the
default maximum of 1000, and are not changed by trimming; yet `saveNote`
returns the "note too long" error, because `len` counts their 1002 bytes, and
nothing is written. -/
theorem saveNote_rejects_multibyte :
    (TrimSpace (List.replicate 501 'é')).length = 501 ∧
    len (TrimSpace (List.replicate 501 'é')) = 1002 ∧
    saveNote sampleConfig sampleWorld (List.replicate 501 'é') =
      (some (.noteTooLong 1000), sampleWorld) := by
  have ht : TrimSpace (List.replicate 501 'é') = List.replicate 501 'é' :=
    TrimSpace_replicate 501 'é' (by decide)
  have hl : len (List.replicate 501 'é') = 1002 := by
    rw [len_replicate]
    decide
  refine ⟨by rw [ht, List.length_replicate], by rw [ht, hl], ?_⟩
  exact saveNote_of_len_gt sampleConfig sampleWorld _ (by decide) (by
    rw [ht, hl]
    decide)

/-- C1, amended. When the trimmed text is non-empty and at most `MaxNoteLen`
bytes long, the logs directory can be made and the day's file opened, and
neither `flock` nor `write` fails, then for every date and time of the clock
`saveNote` returns `nil` and the day's file `MM-DD-YYYY.md` holds its previous
content followed by exactly the one line `- [HH:MM] <trimmed text>`; unless a
file that was there is unreadable, a following `ReadFile` returns exactly that
content, in which the trimmed text occurs. -/
theorem saveNote_appends (config : Config) (w : World) (text : GoString) (fs1 fs2 : Node)
    (hne : TrimSpace text ≠ [])
    (hlen : (len (TrimSpace text) : Int) ≤ config.MaxNoteLen)
    (hlock : w.flockFails = false) (hwrite : w.writeFails = false)
    (hmk : MkdirAll w.fs (Join config.BaseDir [config.MarkdownDir]) = .ok fs1)
    (hop : OpenFile false fs1 (dayFile config w.now) = .ok fs2) :
    (saveNote config w text).1 = none ∧
    contentAt (saveNote config w text).2.fs (dayFile config w.now) =
      contentAt w.fs (dayFile config w.now) ++ noteLine w.now (TrimSpace text) ∧
    ((∀ wr d, w.fs.find (dayFile config w.now) ≠ some (.file false wr d)) →
      ReadFile (saveNote config w text).2.fs (dayFile config w.now) =
        .ok (contentAt w.fs (dayFile config w.now) ++ noteLine w.now (TrimSpace text))) ∧
    TrimSpace text <:+:
      contentAt w.fs (dayFile config w.now) ++ noteLine w.now (TrimSpace text) := by
  obtain ⟨r, d, hf2, hprev⟩ := OpenFile_find _ _ _ hop
  have hchild : fs1.find (dayFile config w.now) = w.fs.find (dayFile config w.now) := by
    have := MkdirAll_find_child (w.now.formatDate ++ ".md".toList) _ _ _ hmk
    simpa [dayFile, Join] using this
  rw [hchild] at hprev
  have hd : contentAt w.fs (dayFile config w.now) = d := by
    rcases hprev with h | ⟨h, hd, _⟩
    · simp [contentAt, h]
    · simp [contentAt, h, hd]
  obtain ⟨fs3, ha, hf3⟩ := appendAt_find (noteLine w.now (TrimSpace text)) r true d _ _ hf2
  have hlen2 : ¬ config.MaxNoteLen < (len (TrimSpace text) : Int) := not_lt.mpr hlen
  have hsave : saveNote config w text =
      (none, { w with fs := fs3, trace := w.trace ++
        [.mkdirAll (Join config.BaseDir [config.MarkdownDir]), .openFile (dayFile config w.now),
         .flock (dayFile config w.now),
         .write (dayFile config w.now) (noteLine w.now (TrimSpace text)),
         .funlock (dayFile config w.now), .close (dayFile config w.now)] }) := by
    have hdir := Dir_dayFile config w.now
    simp only [dayFile, noteLine] at hdir hop ha ⊢
    simp only [saveNote, hne, hlen2, if_false, hdir, World.log, hmk, hop, lockFile, hlock,
      WriteString, hwrite, ha, unlockFile, Bool.false_eq_true]
    simp
  rw [hsave, hd]
  refine ⟨rfl, ?_, ?_, ?_⟩
  · simp only [contentAt, hf3]
  · intro hr
    have hrt : r = true := by
      rcases hprev with h | ⟨_, _, h⟩
      · cases r with
        | true => rfl
        | false => exact absurd h (hr true d)
      · exact h
    simp only [ReadFile, hf3, readNode, hrt, if_true]
  · exact ⟨d ++ ("- [".toList ++ w.now.formatClock ++ "] ".toList), "\n".toList, by
      simp [noteLine]⟩

/-- Witness for the amended C1, the example of the specification: "bought
milk" on 2024-03-05 at 14:07, into an empty store, yields the line
`- [14:07] bought milk` in `03-05-2024.md`. -/
theorem saveNote_appends_witness :
    TrimSpace "bought milk".toList ≠ [] ∧
    dayFile sampleConfig sampleWorld.now =
      ["home".toList, "user".toList, ".dailylog".toList, "logs".toList,
        "03-05-2024.md".toList] ∧
    (saveNote sampleConfig sampleWorld "bought milk".toList).1 = none ∧
    ReadFile (saveNote sampleConfig sampleWorld "bought milk".toList).2.fs
      (dayFile sampleConfig sampleWorld.now) = .ok "- [14:07] bought milk\n".toList :=
  ⟨by decide, by decide,
   (saveNote_appends sampleConfig sampleWorld "bought milk".toList _ _
      (by decide) (by decide) rfl rfl rfl rfl).1,
   (saveNote_appends sampleConfig sampleWorld "bought milk".toList _ _
      (by decide) (by decide) rfl rfl rfl rfl).2.2.1
      (fun _ _ h => Option.noConfusion (h : (none : Option Node) = some _))⟩

end DailyLog
